import Mathlib

/-!
Verification of the friends-graph ranking library (`lib.js`).

The JavaScript source is shallowly embedded: person records become a `Person`
structure, arrays become `List`s, the BFS loops become fuel-indexed structural
recursions where the fuel provably never runs out (each loop iteration strictly
decreases an explicit measure that the supplied fuel bounds), JS `Set` becomes
an order-preserving duplicate-free insertion (`setAdd`), `Array.prototype.sort`
(a stable sort in modern engines) becomes `List.insertionSort`, JS object
buckets with integer-like keys (iterated in ascending numeric key order by
`Object.values`) become an explicit ascending key sort, and `localeCompare`
is modelled by code-point comparison on `String`.  Thrown `TypeError`s become
`Except.error`.
-/

namespace Social

/-- A person record as consumed by the library: `name`, `gender`, the `best`
seed flag and the list of friend names. -/
structure Person where
  name : String
  gender : String
  best : Bool
  friends : List String
deriving DecidableEq

/-- `LevelConstructor(friend, level)` from the source: a person paired with
its assigned circle number. -/
structure LevelConstructor where
  friend : Person
  level : Int
deriving DecidableEq

/-- JS `Set.prototype.add` on a list kept in insertion order:
adding an element already present is a no-op, otherwise it is appended. -/
def setAdd {α : Type} [DecidableEq α] (s : List α) (x : α) : List α :=
  if x ∈ s then s else s ++ [x]

/-- `friends.find(x => x.name === fname)`: first person with the given name. -/
def resolveName (friends : List Person) (fname : String) : Option Person :=
  friends.find? (fun x => x.name == fname)

/-- Loop body of `breadthSearch`: `fuel` bounds the number of iterations of
the `while (queue.length > 0)` loop (the measure
`|graph.filter (∉ visited)| + |queue|` strictly decreases each iteration,
so the fuel supplied by `breadthSearch` never runs out). -/
def breadthSearchAux (graph : List Person) :
    Nat → List Person → List Person → List Person
  | 0, visited, _ => visited
  | fuel + 1, visited, queue =>
    match queue with
    | [] => visited
    | node :: rest =>
      let nextNodes :=
        (graph.filter (fun x => decide (x.name ∈ node.friends))).filter
          (fun x => decide (x ∉ visited))
      breadthSearchAux graph fuel (visited ++ nextNodes) (rest ++ nextNodes)

/-- `breadthSearch(startNode, graph)`: BFS over the adjacency
“`x` is a neighbour of `node` iff `node.friends` contains `x.name`”. -/
def breadthSearch (startNode : Person) (graph : List Person) : List Person :=
  breadthSearchAux graph (graph.length + 1) [startNode] [startNode]

/-- Loop body of `findConnectedComponents`: `fuel` bounds the number of
iterations of the outer `while` loop (each iteration marks at least one new
name visited, so the fuel supplied below never runs out). -/
def findConnectedComponentsAux (graph : List Person) :
    Nat → List String → List (List Person) → List (List Person)
  | 0, _, components => components
  | fuel + 1, visited, components =>
    match graph.find? (fun vertex => decide (vertex.name ∉ visited)) with
    | none => components
    | some node =>
      let search := breadthSearch node graph
      findConnectedComponentsAux graph fuel
        (visited ++ search.map (fun searchNode => searchNode.name))
        (components ++ [search])

/-- `findConnectedComponents(graph)` from the source. -/
def findConnectedComponents (graph : List Person) : List (List Person) :=
  findConnectedComponentsAux graph (graph.length + 1) [] []

/-- Loop body of the recursive `setLevelToFriend`: `fuel` stands for the
number of levels still allowed, i.e. `(maxLevel + 1 - currentLevel).toNat`;
`fuel = 0` is exactly the source's `currentLevel > maxLevel` exit. -/
def setLevelToFriendAux (friends : List Person) :
    Nat → List LevelConstructor → Int → List LevelConstructor
  | 0, nodes, _ => nodes
  | fuel + 1, nodes, currentLevel =>
    if friends.length = nodes.length then
      nodes
    else
      let found : List (Option Person) :=
        (nodes.map (fun graphNode =>
          graphNode.friend.friends.map (fun friendOfFriend =>
            resolveName friends friendOfFriend))).flatten
      let setOfAllFriends : List (Option Person) := found.foldl setAdd []
      let allFriends : List Person :=
        (setOfAllFriends.filterMap id).filter
          (fun x => decide (x ∉ nodes.map (fun elem => elem.friend)))
      setLevelToFriendAux friends fuel
        (nodes ++ allFriends.map (fun f => ⟨f, currentLevel⟩))
        (currentLevel + 1)

/-- `setLevelToFriend(nodes, friends, currentLevel, maxLevel)`. -/
def setLevelToFriend (nodes : List LevelConstructor) (friends : List Person)
    (currentLevel maxLevel : Int) : List LevelConstructor :=
  setLevelToFriendAux friends (maxLevel + 1 - currentLevel).toNat nodes currentLevel

/-- `getFriendsLevels(friends, maxLevel, nodes)`; the source's `nodes`
parameter is dead (overwritten on entry) and therefore dropped. -/
def getFriendsLevels (friends : List Person) (maxLevel : Int) :
    List LevelConstructor :=
  let nodes := (friends.filter (fun friend => friend.best)).map
    (fun bestFriend => LevelConstructor.mk bestFriend 1)
  if maxLevel ≤ 0 ∨ nodes.length < 1 then []
  else setLevelToFriend nodes friends 2 maxLevel

/-- All `LevelConstructor` entries produced by the components in order:
the source's `reduce` pushing every `getFriendsLevels` result. -/
def allLevels (friends : List Person) (maxLevel : Int) : List LevelConstructor :=
  (findConnectedComponents friends).foldl
    (fun levels currentComponent =>
      levels ++ getFriendsLevels currentComponent maxLevel) []

/-- The bucket comparator: `x.friend.name.localeCompare(y.friend.name)`,
modelled by code-point order on strings. -/
def byName (a b : LevelConstructor) : Prop :=
  a.friend.name ≤ b.friend.name

instance : DecidableRel byName := fun a b =>
  inferInstanceAs (Decidable (a.friend.name ≤ b.friend.name))

instance : IsTotal LevelConstructor byName :=
  ⟨fun a b => le_total a.friend.name b.friend.name⟩

instance : IsTrans LevelConstructor byName :=
  ⟨fun _ _ _ h h' => le_trans h h'⟩

/-- The distinct level keys of the bucket object, in ascending order —
`Object.values` iterates integer-like keys numerically ascending. -/
def levelKeys (all : List LevelConstructor) : List Int :=
  ((all.map (fun x => x.level)).foldl setAdd []).insertionSort (· ≤ ·)

/-- The concatenated buckets of `getComponentsOfFriendsWithLevel`, before the
final projection to `Person`: per ascending level, the entries of that level
in encounter order, sorted by name. -/
def rankedWithLevel (friends : List Person) (maxLevel : Int) :
    List LevelConstructor :=
  ((levelKeys (allLevels friends maxLevel)).map (fun l =>
    ((allLevels friends maxLevel).filter
      (fun x => decide (x.level = l))).insertionSort byName)).flatten

/-- `getComponentsOfFriendsWithLevel(friends, maxLevel)` from the source. -/
def getComponentsOfFriendsWithLevel (friends : List Person) (maxLevel : Int) :
    List Person :=
  (rankedWithLevel friends maxLevel).map (fun x => x.friend)

/-- A `Filter` object: the base constructor installs no `filterFunction`,
the refinements (`MaleFilter`, `FemaleFilter`) install a predicate. -/
structure Filter where
  filterFunction : Option (Person → Bool)

/-- `Filter.prototype.filterArray`. -/
def Filter.filterArray (self : Filter) (arrayToFilter : List Person) :
    List Person :=
  match self.filterFunction with
  | some f => arrayToFilter.filter (fun friend => f friend)
  | none => arrayToFilter

def MALE : String := "male"

def FEMALE : String := "female"

/-- `new MaleFilter()`. -/
def MaleFilter : Filter :=
  ⟨some (fun person => person.gender == MALE)⟩

/-- `new FemaleFilter()`. -/
def FemaleFilter : Filter :=
  ⟨some (fun person => person.gender == FEMALE)⟩

/-- The dynamically-typed second constructor argument: either an actual
`Filter` instance or any other value (`filter instanceof Filter` fails). -/
inductive FilterArg where
  | filter (f : Filter)
  | notAFilter

/-- The state of a constructed iterator: the materialized sequence and the
cursor `nextIndex`. -/
structure IteratorState where
  nextIndex : Nat
  friends : List Person

/-- `new Iterator(friends, filter)`: throws a `TypeError` unless the second
argument is a `Filter`, otherwise materializes the filtered ranked sequence
with the depth bound `friends.length`. -/
def Iterator.mk? (friends : List Person) (filter : FilterArg) :
    Except String IteratorState :=
  match filter with
  | .notAFilter => Except.error "Object for filtration must be a Filter"
  | .filter f =>
    Except.ok ⟨0, f.filterArray
      (getComponentsOfFriendsWithLevel friends (friends.length : Int))⟩

/-- `new LimitedIterator(friends, filter, maxLevel)`. -/
def LimitedIterator.mk? (friends : List Person) (filter : FilterArg)
    (maxLevel : Int) : Except String IteratorState :=
  match filter with
  | .notAFilter => Except.error "Object for filtration must be a Filter"
  | .filter f =>
    Except.ok ⟨0, f.filterArray
      (getComponentsOfFriendsWithLevel friends maxLevel)⟩

/-- `Iterator.prototype.next`: returns the person under the cursor and the
advanced state, or the `null` sentinel (state unchanged) at the end. -/
def Iterator.next (s : IteratorState) : Option Person × IteratorState :=
  if h : s.nextIndex < s.friends.length then
    (some (s.friends.get ⟨s.nextIndex, h⟩), ⟨s.nextIndex + 1, s.friends⟩)
  else
    (none, s)

/-- `Iterator.prototype.done`: a pure read of the cursor (it returns only a
boolean and no updated state, so it cannot mutate the cursor). -/
def Iterator.done (s : IteratorState) : Bool :=
  decide (s.nextIndex ≥ s.friends.length)

/-! ## Spec-side relations used to state the claims -/

/-- The adjacency the source's `breadthSearch` actually explores:
`b` is a neighbour of `a` iff `b` is in the collection and `a` lists
`b`'s name. Note this is directed. -/
def adjB (graph : List Person) (a b : Person) : Prop :=
  b ∈ graph ∧ b.name ∈ a.friends

instance (graph : List Person) (a b : Person) : Decidable (adjB graph a b) :=
  inferInstanceAs (Decidable (_ ∧ _))

/-- The undirected adjacency described by the specification: `B` is adjacent
to `A` whenever `A` lists `B`'s name or `B` lists `A`'s name. Stated from the
spec's words, for comparison against the adjacency the code uses. -/
def undirectedAdj (graph : List Person) (a b : Person) : Prop :=
  b ∈ graph ∧ (b.name ∈ a.friends ∨ a.name ∈ b.friends)

instance (graph : List Person) (a b : Person) :
    Decidable (undirectedAdj graph a b) :=
  inferInstanceAs (Decidable (_ ∧ _))

/-- The adjacency used by the level assigner: a name listed by `a`,
resolved by first-match name lookup within the component. -/
def adjF (friends : List Person) (a b : Person) : Prop :=
  ∃ fn ∈ a.friends, resolveName friends fn = some b

/-- `ReachN friends a n b`: `b` is reachable from `a` in exactly `n`
level-assigner steps. -/
inductive ReachN (friends : List Person) : Person → Nat → Person → Prop where
  | refl (a : Person) : ReachN friends a 0 a
  | step {a b c : Person} {n : Nat} :
      ReachN friends a n b → adjF friends b c → ReachN friends a (n + 1) c

/-- The set of hop counts at which `q` can be reached from some `best`
seed of the component. -/
def seedDistSet (friends : List Person) (q : Person) : Set Nat :=
  {n | ∃ s ∈ friends.filter (fun p => p.best), ReachN friends s n q}

/-! ## C5: construction with a non-Filter argument -/

/-- C5: constructing `Iterator` or `LimitedIterator` with a second argument
that is not a `Filter` instance fails immediately with the `TypeError`
(no state is produced), and with any actual `Filter` construction always
succeeds, so no error can arise later from `next()`/`done()` (which are
total functions of the constructed state). -/
theorem c5_construction_type_error (friends : List Person) (maxLevel : Int) :
    Iterator.mk? friends FilterArg.notAFilter
        = Except.error "Object for filtration must be a Filter"
      ∧ LimitedIterator.mk? friends FilterArg.notAFilter maxLevel
        = Except.error "Object for filtration must be a Filter"
      ∧ (∀ f : Filter, ∃ s, Iterator.mk? friends (FilterArg.filter f)
        = Except.ok s)
      ∧ (∀ f : Filter, ∃ s, LimitedIterator.mk? friends (FilterArg.filter f)
          maxLevel = Except.ok s) :=
  ⟨rfl, rfl, fun _ => ⟨_, rfl⟩, fun _ => ⟨_, rfl⟩⟩

/-! ## C6: next / done protocol -/

/-- C6: `done()` is true exactly when `next()` would return the sentinel
`null`; and when `done()` is true, `next()` returns the sentinel and leaves
the state unchanged (hence every subsequent `next()` also returns the
sentinel and never a person). `done` itself returns only a boolean, so it
cannot mutate the cursor. -/
theorem c6_done_next_protocol (s : IteratorState) :
    (Iterator.done s = true ↔ (Iterator.next s).1 = none)
      ∧ (Iterator.done s = true → Iterator.next s = (none, s)) := by
  unfold Iterator.done Iterator.next
  by_cases h : s.nextIndex < s.friends.length
  · simp only [dif_pos h]
    constructor
    · constructor
      · intro hd
        simp at hd
        omega
      · intro hn
        simp at hn
    · intro hd
      simp at hd
      omega
  · simp only [dif_neg h]
    constructor
    · constructor
      · intro _
        trivial
      · intro _
        simp
        omega
    · intro _
      trivial

/-- Witness for C6 at a concrete exhausted iterator state. -/
theorem c6_done_next_protocol_witness :
    Iterator.next ⟨0, []⟩ = (none, (⟨0, []⟩ : IteratorState)) :=
  (c6_done_next_protocol ⟨0, []⟩).2 (by decide)

/-! ## C7: empty result for non-positive bound or no seed -/

/-- C7: `getFriendsLevels` yields the empty sequence whenever the depth
bound is ≤ 0 or the component has no `best`-flagged person; it returns
normally (silent omission, not an error). -/
theorem c7_empty_levels (friends : List Person) (maxLevel : Int)
    (h : maxLevel ≤ 0 ∨ (friends.filter (fun p => p.best)).length < 1) :
    getFriendsLevels friends maxLevel = [] := by
  unfold getFriendsLevels
  rw [if_pos]
  simpa using h

/-- Witness for C7: a component with a seed but depth bound 0. -/
theorem c7_empty_levels_witness :
    getFriendsLevels [⟨"A", "male", true, []⟩] 0 = [] :=
  c7_empty_levels [⟨"A", "male", true, []⟩] 0 (Or.inl (by decide))

/-! ## C9: filterArray is an order-preserving subsequence -/

/-- C9: `filterArray` returns a sublist of its input (survivors keep their
relative order); with an installed predicate it is exactly `List.filter` by
that predicate; and the base `Filter` (no predicate) is the identity. -/
theorem c9_filter_subsequence (f : Filter) (l : List Person) :
    (f.filterArray l).Sublist l
      ∧ (∀ p, f.filterFunction = some p
          → f.filterArray l = l.filter p)
      ∧ (Filter.mk none).filterArray l = l := by
  refine ⟨?_, ?_, rfl⟩
  · unfold Filter.filterArray
    cases f.filterFunction with
    | some p => exact List.filter_sublist l
    | none => exact List.Sublist.refl l
  · intro p hp
    unfold Filter.filterArray
    rw [hp]

/-- Witness for C9: `MaleFilter` applied to a concrete two-person ranked
sequence keeps exactly the male person. -/
theorem c9_filter_subsequence_witness :
    MaleFilter.filterArray
        [⟨"M", "male", false, []⟩, ⟨"F", "female", false, []⟩]
      = [⟨"M", "male", false, []⟩] :=
  ((c9_filter_subsequence MaleFilter
        [⟨"M", "male", false, []⟩, ⟨"F", "female", false, []⟩]).2.1
      (fun person => person.gender == MALE) rfl).trans (by decide)

/-! ## C10: LimitedIterator with maxLevel = persons.length refines Iterator -/

/-- C10: constructing `LimitedIterator` with depth bound equal to the total
number of persons produces exactly the same state (hence the same
`next()`/`done()` behaviour) as the unbounded `Iterator`, which is defined
by taking the bound `friends.length`. -/
theorem c10_limited_full_depth_eq_iterator (friends : List Person)
    (filter : FilterArg) :
    LimitedIterator.mk? friends filter (friends.length : Int)
      = Iterator.mk? friends filter := by
  cases filter <;> rfl

/-! ## C8: the three-person chain example -/

/-- Person A of the spec's example: `best`, friends `[B]`. -/
def exA : Person := ⟨"A", "male", true, ["B"]⟩

/-- Person B of the spec's example: not best, friends `[A, C]`. -/
def exB : Person := ⟨"B", "male", false, ["A", "C"]⟩

/-- Person C of the spec's example: not best, friends `[B]`. -/
def exC : Person := ⟨"C", "male", false, ["B"]⟩

/-- C8: on A(best, [B]), B([A,C]), C([B]), the unbounded `Iterator` with the
accept-all base `Filter` materializes exactly the sequence `[A, B, C]`
(so `next()` yields A, B, C then the sentinel), with assigned levels
A ↦ 1, B ↦ 2, C ↦ 3. -/
theorem c8_chain_example :
    Iterator.mk? [exA, exB, exC] (FilterArg.filter ⟨none⟩)
        = Except.ok ⟨0, [exA, exB, exC]⟩
      ∧ rankedWithLevel [exA, exB, exC] (([exA, exB, exC].length : Nat) : Int)
        = [⟨exA, 1⟩, ⟨exB, 2⟩, ⟨exC, 3⟩] := by
  constructor
  · rfl
  · rfl

/-! ## C1: components cover the input but need not be disjoint -/

/-- First person of the C1 counterexample: no friends. -/
def c1X : Person := ⟨"X", "male", false, []⟩

/-- Second person of the C1 counterexample: lists `X` (not reciprocated). -/
def c1Y : Person := ⟨"Y", "male", false, ["X"]⟩

/-- Counterexample to C1 as stated: with the asymmetric input
`X(friends=[])`, `Y(friends=[X])`, `X` appears in two of the returned
components, so the components are not pairwise disjoint and `X` does not
appear in exactly one component. -/
theorem c1_partition_counterexample :
    findConnectedComponents [c1X, c1Y] = [[c1X], [c1Y, c1X]]
      ∧ (findConnectedComponents [c1X, c1Y]).countP
          (fun c => decide (c1X ∈ c)) = 2
      ∧ ¬ (findConnectedComponents [c1X, c1Y]).Pairwise
          (fun c₁ c₂ => ∀ p, p ∈ c₁ → p ∉ c₂) := by
  have hcc : findConnectedComponents [c1X, c1Y] = [[c1X], [c1Y, c1X]] := rfl
  refine ⟨hcc, rfl, ?_⟩
  rw [hcc]
  intro h
  rw [List.pairwise_cons] at h
  exact h.1 [c1Y, c1X] (by simp) c1X (by simp) (by simp)

/-! ## C2: what breadthSearch actually computes -/

/-- First person of the C2 counterexample: no friends. -/
def c2X : Person := ⟨"X", "male", false, []⟩

/-- Second person of the C2 counterexample: lists `X` (not reciprocated). -/
def c2Y : Person := ⟨"Y", "male", false, ["X"]⟩

/-- Counterexample to C2 as stated: `Y` is undirected-adjacent to `X`
(it lists `X`'s name), yet the BFS started at `X` never collects `Y` —
the component of `X` is `[X]`, which is not a maximal mutually-reachable
set under the undirected relation. -/
theorem c2_undirected_counterexample :
    undirectedAdj [c2X, c2Y] c2X c2Y
      ∧ c2X ∈ breadthSearch c2X [c2X, c2Y]
      ∧ c2Y ∉ breadthSearch c2X [c2X, c2Y]
      ∧ (findConnectedComponents [c2X, c2Y]).head? = some [c2X] := by
  refine ⟨?_, ?_, ?_, rfl⟩
  all_goals decide

/-- Generic decomposition of a `countP` along a pointwise-stronger
predicate: counting `q` splits into counting `p` and counting
`q` without `p`. -/
theorem countP_split {α : Type} (l : List α) (p q : α → Bool)
    (h : ∀ a ∈ l, p a = true → q a = true) :
    l.countP q = l.countP p + l.countP (fun a => q a && !(p a)) := by
  induction l with
  | nil => simp
  | cons x xs ih =>
    have ih' := ih (fun a ha hp => h a (List.mem_cons_of_mem _ ha) hp)
    by_cases hp : p x = true
    · have hq := h x (List.mem_cons_self _ _) hp
      simp [List.countP_cons, hp, hq, ih']
      omega
    · by_cases hq : q x = true
      · simp [List.countP_cons, hp, hq, ih']
        omega
      · simp [List.countP_cons, hp, hq, ih']

/-- The BFS loop only ever appends to `visited`. -/
theorem breadthSearchAux_eq_append (graph : List Person) :
    ∀ (fuel : Nat) (visited queue : List Person),
      ∃ r, breadthSearchAux graph fuel visited queue = visited ++ r := by
  intro fuel
  induction fuel with
  | zero =>
    intro visited queue
    exact ⟨[], by simp [breadthSearchAux]⟩
  | succ fuel ih =>
    intro visited queue
    cases queue with
    | nil => exact ⟨[], by simp [breadthSearchAux]⟩
    | cons node rest =>
      obtain ⟨r, hr⟩ := ih
        (visited ++ (graph.filter (fun x => decide (x.name ∈ node.friends))).filter
          (fun x => decide (x ∉ visited)))
        (rest ++ (graph.filter (fun x => decide (x.name ∈ node.friends))).filter
          (fun x => decide (x ∉ visited)))
      refine ⟨(graph.filter (fun x => decide (x.name ∈ node.friends))).filter
          (fun x => decide (x ∉ visited)) ++ r, ?_⟩
      simp only [breadthSearchAux]
      rw [hr, List.append_assoc]

/-- One BFS iteration strictly decreases
`countP (∉ visited) graph + queue.length`: the unvisited count drops by at
least the number of newly enqueued nodes. -/
theorem bfs_measure_step (graph visited : List Person) (node : Person) :
    graph.countP (fun x => decide (x ∉ visited ++
        (graph.filter (fun x => decide (x.name ∈ node.friends))).filter
          (fun x => decide (x ∉ visited)))) +
      ((graph.filter (fun x => decide (x.name ∈ node.friends))).filter
        (fun x => decide (x ∉ visited))).length
      ≤ graph.countP (fun x => decide (x ∉ visited)) := by
  set nn := (graph.filter (fun x => decide (x.name ∈ node.friends))).filter
    (fun x => decide (x ∉ visited)) with hnn
  have hlen : nn.length
      = graph.countP (fun x =>
          decide (x ∉ visited) && decide (x.name ∈ node.friends)) := by
    rw [hnn, ← List.countP_eq_length_filter, List.countP_filter]
  have hsplit := countP_split graph
    (fun x => decide (x ∉ visited ++ nn)) (fun x => decide (x ∉ visited))
    (by
      intro a _ hp
      simp only [decide_eq_true_eq] at hp ⊢
      intro hmem
      exact hp (List.mem_append_left _ hmem))
  have hmono : graph.countP (fun x =>
        decide (x ∉ visited) && decide (x.name ∈ node.friends))
      ≤ graph.countP (fun a =>
          decide (a ∉ visited) && !(decide (a ∉ visited ++ nn))) := by
    apply List.countP_mono_left
    intro a ha hp
    simp only [Bool.and_eq_true, decide_eq_true_eq] at hp
    have hann : a ∈ nn := by
      rw [hnn]
      refine List.mem_filter.2 ⟨List.mem_filter.2 ⟨ha, by simp [hp.2]⟩, by simp [hp.1]⟩
    simp only [Bool.and_eq_true, decide_eq_true_eq, Bool.not_eq_true',
      decide_eq_false_iff_not, Decidable.not_not]
    exact ⟨hp.1, List.mem_append_right _ hann⟩
  simp only [] at hsplit hmono
  omega

/-- Everything `breadthSearchAux` collects is reachable from the start node
along the code's directed adjacency, provided the initial `visited` and
`queue` only hold reachable nodes. -/
theorem breadthSearchAux_sound (graph : List Person) (startNode : Person) :
    ∀ (fuel : Nat) (visited queue : List Person),
      (∀ v ∈ visited, Relation.ReflTransGen (adjB graph) startNode v) →
      (∀ v ∈ queue, Relation.ReflTransGen (adjB graph) startNode v) →
      ∀ q ∈ breadthSearchAux graph fuel visited queue,
        Relation.ReflTransGen (adjB graph) startNode q := by
  intro fuel
  induction fuel with
  | zero =>
    intro visited queue hv _ q hq
    simpa [breadthSearchAux] using hv q (by simpa [breadthSearchAux] using hq)
  | succ fuel ih =>
    intro visited queue hv hq q hmem
    cases queue with
    | nil => exact hv q (by simpa [breadthSearchAux] using hmem)
    | cons node rest =>
      simp only [breadthSearchAux] at hmem
      refine ih _ _ ?_ ?_ q hmem
      · intro v hvmem
        rcases List.mem_append.1 hvmem with h | h
        · exact hv v h
        · have h1 := List.mem_filter.1 h
          have h2 := List.mem_filter.1 h1.1
          refine (hq node (by simp)).tail ?_
          exact ⟨h2.1, by simpa using h2.2⟩
      · intro v hvmem
        rcases List.mem_append.1 hvmem with h | h
        · exact hq v (by simp [h])
        · have h1 := List.mem_filter.1 h
          have h2 := List.mem_filter.1 h1.1
          refine (hq node (by simp)).tail ?_
          exact ⟨h2.1, by simpa using h2.2⟩

/-- With enough fuel (measured by unvisited count plus queue length) and the
BFS invariant, the final visited list is closed under the directed
adjacency. -/
theorem breadthSearchAux_closed (graph : List Person) :
    ∀ (fuel : Nat) (visited queue : List Person),
      graph.countP (fun x => decide (x ∉ visited)) + queue.length ≤ fuel →
      (∀ v ∈ visited, v ∈ queue ∨ ∀ b, adjB graph v b → b ∈ visited) →
      (∀ v ∈ queue, v ∈ visited) →
      ∀ v ∈ breadthSearchAux graph fuel visited queue,
        ∀ b, adjB graph v b → b ∈ breadthSearchAux graph fuel visited queue := by
  intro fuel
  induction fuel with
  | zero =>
    intro visited queue hfuel hinv _ v hvmem b hadj
    have hqnil : queue = [] := List.length_eq_zero.1 (by omega)
    subst hqnil
    simp only [breadthSearchAux] at hvmem ⊢
    rcases hinv v hvmem with h | h
    · simp at h
    · exact h b hadj
  | succ fuel ih =>
    intro visited queue hfuel hinv hq v hvmem b hadj
    cases queue with
    | nil =>
      simp only [breadthSearchAux] at hvmem ⊢
      rcases hinv v hvmem with h | h
      · simp at h
      · exact h b hadj
    | cons node rest =>
      simp only [breadthSearchAux] at hvmem ⊢
      set nn := (graph.filter (fun x => decide (x.name ∈ node.friends))).filter
        (fun x => decide (x ∉ visited)) with hnn
      refine ih (visited ++ nn) (rest ++ nn) ?_ ?_ ?_ v hvmem b hadj
      · have hstep := bfs_measure_step graph visited node
        rw [← hnn] at hstep
        simp only [List.length_append, List.length_cons] at hfuel ⊢
        omega
      · intro w hwmem
        rcases List.mem_append.1 hwmem with h | h
        · rcases hinv w h with h' | h'
          · rcases List.mem_cons.1 h' with h'' | h''
            · subst h''
              right
              intro b' hb'
              by_cases hbv : b' ∈ visited
              · exact List.mem_append_left _ hbv
              · refine List.mem_append_right _ ?_
                rw [hnn]
                refine List.mem_filter.2 ⟨List.mem_filter.2 ⟨hb'.1, ?_⟩, ?_⟩
                · simp [hb'.2]
                · simp [hbv]
            · exact Or.inl (List.mem_append_left _ h'')
          · right
            intro b' hb'
            exact List.mem_append_left _ (h' b' hb')
        · exact Or.inl (List.mem_append_right _ h)
      · intro w hwmem
        rcases List.mem_append.1 hwmem with h | h
        · exact List.mem_append_left _ (hq w (by simp [h]))
        · exact List.mem_append_right _ h

/-- C2 (amended): `breadthSearch` collects exactly the persons reachable
from the start node via the code's directed adjacency `adjB` — a person
`b` is explored from `a` when `a` lists `b`'s name; the reverse listing is
not consulted, so the relation is not symmetrized. -/
theorem c2_bfs_directed_reachability (graph : List Person)
    (startNode q : Person) :
    q ∈ breadthSearch startNode graph
      ↔ Relation.ReflTransGen (adjB graph) startNode q := by
  constructor
  · intro hmem
    refine breadthSearchAux_sound graph startNode (graph.length + 1)
      [startNode] [startNode] ?_ ?_ q hmem
    · intro v hv
      simp at hv
      subst hv
      exact Relation.ReflTransGen.refl
    · intro v hv
      simp at hv
      subst hv
      exact Relation.ReflTransGen.refl
  · intro hreach
    have hclosed := breadthSearchAux_closed graph (graph.length + 1)
      [startNode] [startNode]
      (by
        have := List.countP_le_length
          (p := fun x => decide (x ∉ [startNode])) (l := graph)
        simp only [List.length_cons, List.length_nil]
        omega)
      (by intro v hv; exact Or.inl hv)
      (by intro v hv; exact hv)
    have hstart : startNode ∈ breadthSearch startNode graph := by
      obtain ⟨r, hr⟩ := breadthSearchAux_eq_append graph (graph.length + 1)
        [startNode] [startNode]
      unfold breadthSearch
      rw [hr]
      simp
    induction hreach with
    | refl => exact hstart
    | tail _ hbc ihr => exact hclosed _ ihr _ hbc

/-- Strict version of `countP` monotonicity: if `p` implies `q` pointwise
and some member satisfies `q` but not `p`, the count strictly grows. -/
theorem countP_lt_of {α : Type} (l : List α) (p q : α → Bool)
    (hpq : ∀ a ∈ l, p a = true → q a = true)
    (x : α) (hx : x ∈ l) (hqx : q x = true) (hpx : ¬ p x = true) :
    l.countP p < l.countP q := by
  induction l with
  | nil => simp at hx
  | cons y ys ih =>
    rcases List.mem_cons.1 hx with h | h
    · subst h
      have hle := List.countP_mono_left
        (l := ys) (p := p) (q := q)
        (fun a ha hp => hpq a (List.mem_cons_of_mem _ ha) hp)
      simp [List.countP_cons, hpx, hqx]
      omega
    · have hlt := ih (fun a ha hp => hpq a (List.mem_cons_of_mem _ ha) hp) h
      by_cases hpy : p y = true
      · have hqy := hpq y (List.mem_cons_self _ _) hpy
        simp [List.countP_cons, hpy, hqy]
        omega
      · by_cases hqy : q y = true <;>
          simp [List.countP_cons, hpy, hqy] <;> omega

/-- Everything the BFS collects lies in the graph, as long as the initial
visited and queue lists do. -/
theorem breadthSearchAux_subset (graph : List Person) :
    ∀ (fuel : Nat) (visited queue : List Person),
      (∀ v ∈ visited, v ∈ graph) →
      ∀ q ∈ breadthSearchAux graph fuel visited queue, q ∈ graph := by
  intro fuel
  induction fuel with
  | zero =>
    intro visited queue hv q hq
    exact hv q (by simpa [breadthSearchAux] using hq)
  | succ fuel ih =>
    intro visited queue hv q hq
    cases queue with
    | nil => exact hv q (by simpa [breadthSearchAux] using hq)
    | cons node rest =>
      simp only [breadthSearchAux] at hq
      refine ih _ _ ?_ q hq
      intro v hvmem
      rcases List.mem_append.1 hvmem with h | h
      · exact hv v h
      · exact (List.mem_filter.1 (List.mem_filter.1 h).1).1

/-- The start node is the head of its own BFS result. -/
theorem startNode_mem_breadthSearch (startNode : Person)
    (graph : List Person) :
    startNode ∈ breadthSearch startNode graph := by
  obtain ⟨r, hr⟩ := breadthSearchAux_eq_append graph (graph.length + 1)
    [startNode] [startNode]
  unfold breadthSearch
  rw [hr]
  simp

/-- The component-finder loop only ever appends new components. -/
theorem findConnectedComponentsAux_mono (graph : List Person) :
    ∀ (fuel : Nat) (visited : List String) (components : List (List Person)),
      ∀ c ∈ components, c ∈ findConnectedComponentsAux graph fuel visited components := by
  intro fuel
  induction fuel with
  | zero =>
    intro visited components c hc
    simpa [findConnectedComponentsAux] using hc
  | succ fuel ih =>
    intro visited components c hc
    simp only [findConnectedComponentsAux]
    cases hfind : graph.find? (fun vertex => decide (vertex.name ∉ visited)) with
    | none => exact hc
    | some node =>
      exact ih _ _ c (List.mem_append_left _ hc)

/-- Coverage of the component-finder loop: any person whose name is still
unvisited ends up in one of the returned components, provided names are
unique and the fuel dominates the number of unvisited names. -/
theorem findConnectedComponentsAux_cover (graph : List Person)
    (hnd : (graph.map (fun p => p.name)).Nodup) :
    ∀ (fuel : Nat) (visited : List String) (components : List (List Person)),
      graph.countP (fun v => decide (v.name ∉ visited)) ≤ fuel →
      ∀ p ∈ graph, p.name ∉ visited →
        ∃ c ∈ findConnectedComponentsAux graph fuel visited components, p ∈ c := by
  intro fuel
  induction fuel with
  | zero =>
    intro visited components hfuel p hp hpv
    exfalso
    have : 0 < graph.countP (fun v => decide (v.name ∉ visited)) := by
      rw [List.countP_pos_iff]
      exact ⟨p, hp, by simpa using hpv⟩
    omega
  | succ fuel ih =>
    intro visited components hfuel p hp hpv
    simp only [findConnectedComponentsAux]
    cases hfind : graph.find? (fun vertex => decide (vertex.name ∉ visited)) with
    | none =>
      exfalso
      have := List.find?_eq_none.1 hfind p hp
      simp at this
      exact hpv this
    | some node =>
      have hnodeg : node ∈ graph := List.mem_of_find?_eq_some hfind
      have hnodev : node.name ∉ visited := by
        have := List.find?_some hfind
        simpa using this
      have hnode_mem : node ∈ breadthSearch node graph :=
        startNode_mem_breadthSearch node graph
      by_cases hcase : p.name ∈ (breadthSearch node graph).map (fun s => s.name)
      · obtain ⟨q, hq, hqname⟩ := List.mem_map.1 hcase
        have hqg : q ∈ graph := by
          refine breadthSearchAux_subset graph (graph.length + 1)
            [node] [node] ?_ q hq
          intro v hv
          simp at hv
          subst hv
          exact hnodeg
        have hqp : q = p := List.inj_on_of_nodup_map hnd hqg hp hqname
        subst hqp
        exact ⟨breadthSearch node graph,
          findConnectedComponentsAux_mono graph fuel _ _ _
            (List.mem_append_right _ (by simp)), hq⟩
      · have hpv' : p.name ∉ visited ++ (breadthSearch node graph).map
            (fun searchNode => searchNode.name) := by
          rw [List.mem_append]
          push_neg
          exact ⟨hpv, hcase⟩
        refine ih _ _ ?_ p hp hpv'
        have hlt : graph.countP (fun v => decide (v.name ∉ visited ++
              (breadthSearch node graph).map (fun s => s.name)))
            < graph.countP (fun v => decide (v.name ∉ visited)) := by
          refine countP_lt_of graph _ _ ?_ node hnodeg ?_ ?_
          · intro a _ hpa
            simp only [decide_eq_true_eq, List.mem_append] at hpa ⊢
            intro hmem
            exact hpa (Or.inl hmem)
          · simpa using hnodev
          · simp only [decide_eq_true_eq, List.mem_append]
            push_neg
            exact Or.inr (List.mem_map_of_mem (fun s => s.name) hnode_mem)
        omega

/-- Helper: the C1 witness person. -/
def c1W : Person := ⟨"W", "female", true, []⟩

/-- C1 (amended): the components returned by `findConnectedComponents`
cover the input — when names are unique, every person appears in at least
one component. They need not be pairwise disjoint: when the `friends`
relation is not symmetric a person can recur in a later component
(see the counterexample), so "exactly one" must be weakened to
"at least one". -/
theorem c1_components_cover (graph : List Person)
    (hnd : (graph.map (fun p => p.name)).Nodup) :
    ∀ p ∈ graph, ∃ c ∈ findConnectedComponents graph, p ∈ c := by
  intro p hp
  refine findConnectedComponentsAux_cover graph hnd (graph.length + 1) [] [] ?_ p hp (by simp)
  have := List.countP_le_length
    (p := fun v => decide (v.name ∉ ([] : List String))) (l := graph)
  omega

/-- Witness for C1 (amended) on a concrete one-person collection. -/
theorem c1_components_cover_witness :
    ∃ c ∈ findConnectedComponents [c1W], c1W ∈ c :=
  c1_components_cover [c1W] (by decide) c1W (by decide)

/-! ## C4: the ranked sequence is sorted by level, then by name -/

/-- Repeated `setAdd` (the JS `Set`) never introduces duplicates. -/
theorem foldl_setAdd_nodup {α : Type} [DecidableEq α] :
    ∀ (l init : List α), init.Nodup → (l.foldl setAdd init).Nodup := by
  intro l
  induction l with
  | nil =>
    intro init h
    simpa using h
  | cons x xs ih =>
    intro init h
    simp only [List.foldl_cons]
    apply ih
    unfold setAdd
    by_cases hx : x ∈ init
    · simpa [hx] using h
    · rw [if_neg hx]
      simp [List.nodup_append, h, hx]

/-- The distinct level keys are strictly increasing. -/
theorem levelKeys_sorted_lt (all : List LevelConstructor) :
    (levelKeys all).Sorted (· < ·) := by
  have hsorted : (levelKeys all).Sorted (· ≤ ·) :=
    List.sorted_insertionSort (· ≤ ·) _
  have hnodup : (levelKeys all).Nodup := by
    unfold levelKeys
    exact ((List.perm_insertionSort (· ≤ ·) _).nodup_iff).2
      (foldl_setAdd_nodup _ [] List.nodup_nil)
  exact hsorted.lt_of_le hnodup

/-- C4: the ranked sequence produced by `getComponentsOfFriendsWithLevel`
(before its final projection to persons) is ordered non-decreasingly by
level across all components combined, and within any level bucket
non-decreasingly by name (here locale-aware comparison is modelled by
code-point string order); the function's output is exactly the projection
of that ranked sequence. -/
theorem c4_ranked_sorted (friends : List Person) (maxLevel : Int) :
    (rankedWithLevel friends maxLevel).Pairwise
        (fun a b => a.level < b.level
          ∨ (a.level = b.level ∧ a.friend.name ≤ b.friend.name))
      ∧ getComponentsOfFriendsWithLevel friends maxLevel
        = (rankedWithLevel friends maxLevel).map (fun x => x.friend) := by
  refine ⟨?_, rfl⟩
  unfold rankedWithLevel
  rw [List.pairwise_flatten]
  constructor
  · intro bl hbl
    obtain ⟨l, _, rfl⟩ := List.mem_map.1 hbl
    have hsorted : ((allLevels friends maxLevel).filter
        (fun x => decide (x.level = l))).insertionSort byName |>.Sorted byName :=
      List.sorted_insertionSort byName _
    refine List.Pairwise.imp_of_mem ?_ hsorted
    intro a b ha hb hab
    have hal : a.level = l := by
      have hmem := (List.perm_insertionSort byName _).mem_iff.1 ha
      simpa using (List.mem_filter.1 hmem).2
    have hbl' : b.level = l := by
      have hmem := (List.perm_insertionSort byName _).mem_iff.1 hb
      simpa using (List.mem_filter.1 hmem).2
    exact Or.inr ⟨hal.trans hbl'.symm, hab⟩
  · rw [List.pairwise_map]
    refine List.Pairwise.imp_of_mem ?_
      (levelKeys_sorted_lt (allLevels friends maxLevel))
    intro l₁ l₂ _ _ hlt x hx y hy
    left
    have hxl : x.level = l₁ := by
      have hmem := (List.perm_insertionSort byName _).mem_iff.1 hx
      simpa using (List.mem_filter.1 hmem).2
    have hyl : y.level = l₂ := by
      have hmem := (List.perm_insertionSort byName _).mem_iff.1 hy
      simpa using (List.mem_filter.1 hmem).2
    rw [hxl, hyl]
    exact hlt

/-! ## C3: assigned levels are BFS distances from the nearest seed -/

/-- Membership in a `setAdd`-fold is membership in the initial list or in
the folded one. -/
theorem mem_foldl_setAdd {α : Type} [DecidableEq α] :
    ∀ (l init : List α) (y : α),
      y ∈ l.foldl setAdd init ↔ y ∈ init ∨ y ∈ l := by
  intro l
  induction l with
  | nil =>
    intro init y
    simp
  | cons x xs ih =>
    intro init y
    simp only [List.foldl_cons]
    rw [ih]
    unfold setAdd
    by_cases hx : x ∈ init
    · rw [if_pos hx]
      constructor
      · rintro (h | h)
        · exact Or.inl h
        · exact Or.inr (List.mem_cons_of_mem _ h)
      · rintro (h | h)
        · exact Or.inl h
        · rcases List.mem_cons.1 h with h' | h'
          · subst h'
            exact Or.inl hx
          · exact Or.inr h'
    · rw [if_neg hx]
      simp only [List.mem_append, List.mem_singleton, List.mem_cons]
      tauto

/-- Any person with a seed distance lies in the component list. -/
theorem mem_friends_of_reachN (friends : List Person) :
    ∀ {s : Person} {n : Nat} {q : Person},
      ReachN friends s n q → q ∈ friends ∨ q = s := by
  intro s n q h
  induction h with
  | refl => exact Or.inr rfl
  | step _ hadj _ =>
    obtain ⟨fn, _, hres⟩ := hadj
    exact Or.inl (List.mem_of_find?_eq_some hres)

/-- Any member of the seed-distance set yields a least element. -/
theorem seedDist_isLeast (friends : List Person) (q : Person) {n : Nat}
    (hn : n ∈ seedDistSet friends q) :
    IsLeast (seedDistSet friends q) (sInf (seedDistSet friends q)) :=
  ⟨Nat.sInf_mem ⟨n, hn⟩, fun _ hm => Nat.sInf_le hm⟩

/-- A filtered list with a unique matching entry is that singleton. -/
theorem filter_eq_singleton_of_unique :
    ∀ (l : List LevelConstructor) (e : LevelConstructor),
      e ∈ l → (∀ e' ∈ l, e'.friend = e.friend → e' = e) →
      ((l.map (fun x => x.friend)).Nodup) →
      l.filter (fun x => decide (x.friend = e.friend)) = [e] := by
  intro l
  induction l with
  | nil =>
    intro e he
    simp at he
  | cons y ys ih =>
    intro e he hu hnd
    rcases List.mem_cons.1 he with h | h
    · subst h
      rw [List.filter_cons_of_pos (by simp)]
      have : ys.filter (fun x => decide (x.friend = e.friend)) = [] := by
        rw [List.filter_eq_nil_iff]
        intro a ha
        simp only [decide_eq_true_eq]
        intro haf
        have : e.friend ∉ ys.map (fun x => x.friend) := by
          simp only [List.map_cons, List.nodup_cons] at hnd
          exact hnd.1
        exact this (haf ▸ List.mem_map_of_mem _ ha)
      rw [this]
    · have hyne : ¬ (y.friend = e.friend) := by
        intro heq
        have hy : y = e := hu y (List.mem_cons_self _ _) heq
        subst hy
        have : y.friend ∉ ys.map (fun x => x.friend) := by
          simp only [List.map_cons, List.nodup_cons] at hnd
          exact hnd.1
        exact this (List.mem_map_of_mem _ h)
      rw [List.filter_cons_of_neg (by simpa using hyne)]
      refine ih e h ?_ ?_
      · intro e' he' hf
        exact hu e' (List.mem_cons_of_mem _ he') hf
      · simp only [List.map_cons, List.nodup_cons] at hnd
        exact hnd.2

/-- Membership in the batch of newly discovered persons of one
`setLevelToFriend` round: exactly the persons adjacent (via name
resolution) to some already-assigned person and not yet assigned. -/
theorem mem_step_allFriends_iff (friends : List Person)
    (nodes : List LevelConstructor) (x : Person) :
    x ∈ ((((nodes.map (fun graphNode =>
            graphNode.friend.friends.map (fun friendOfFriend =>
              resolveName friends friendOfFriend))).flatten.foldl setAdd
            []).filterMap id).filter
          (fun y => decide (y ∉ nodes.map (fun elem => elem.friend))))
      ↔ ((∃ e ∈ nodes, adjF friends e.friend x)
          ∧ x ∉ nodes.map (fun elem => elem.friend)) := by
  rw [List.mem_filter]
  simp only [decide_eq_true_eq, List.mem_filterMap, id_eq, mem_foldl_setAdd,
    List.not_mem_nil, false_or, List.mem_flatten, List.mem_map, adjF]
  constructor
  · rintro ⟨⟨a, ⟨l', ⟨gn, hgn, rfl⟩, ha⟩, rfl⟩, hnmem⟩
    obtain ⟨fn, hfn, hres⟩ := List.mem_map.1 ha
    exact ⟨⟨gn, hgn, fn, hfn, hres⟩, hnmem⟩
  · rintro ⟨⟨e, he, fn, hfn, hres⟩, hnmem⟩
    exact ⟨⟨some x, ⟨e.friend.friends.map (fun friendOfFriend =>
      resolveName friends friendOfFriend), ⟨e, he, rfl⟩,
      hres ▸ List.mem_map_of_mem _ hfn⟩, rfl⟩, hnmem⟩

/-- One round of `setLevelToFriend` discovers exactly the persons whose
least seed distance is `m = currentLevel - 1`, i.e. the next BFS layer. -/
theorem step_set_is_next_layer (friends : List Person)
    (nodes : List LevelConstructor) (currentLevel : Int) (m : Nat)
    (hm : (m : Int) = currentLevel - 1) (hm1 : 1 ≤ m)
    (hb : ∀ e ∈ nodes, e.friend ∈ friends ∧ ∃ d : Nat,
      IsLeast (seedDistSet friends e.friend) d ∧ e.level = (d : Int) + 1)
    (hlev : ∀ e ∈ nodes, e.level ≤ currentLevel - 1)
    (hc : ∀ (q : Person) (d : Nat), IsLeast (seedDistSet friends q) d →
      (d : Int) + 1 ≤ currentLevel - 1 →
      LevelConstructor.mk q ((d : Int) + 1) ∈ nodes)
    (x : Person) :
    ((∃ e ∈ nodes, adjF friends e.friend x)
        ∧ x ∉ nodes.map (fun elem => elem.friend))
      ↔ IsLeast (seedDistSet friends x) m := by
  constructor
  · rintro ⟨⟨e, he, hadj⟩, hnmem⟩
    obtain ⟨_, d_e, hd_e, hlev_e⟩ := hb e he
    have hle' := hlev e he
    rw [hlev_e] at hle'
    have hde_m : d_e + 1 ≤ m := by
      have : (d_e : Int) + 1 ≤ (m : Int) := by omega
      exact_mod_cast this
    have hstep : (d_e + 1) ∈ seedDistSet friends x := by
      obtain ⟨s, hs, hr⟩ := hd_e.1
      exact ⟨s, hs, hr.step hadj⟩
    have hdx := seedDist_isLeast friends x hstep
    set dx := sInf (seedDistSet friends x) with hdxdef
    have hdx_le : dx ≤ d_e + 1 := hdx.2 hstep
    by_cases hsmall : (dx : Int) + 1 ≤ currentLevel - 1
    · exact absurd (List.mem_map_of_mem (fun e => e.friend)
        (hc x dx hdx hsmall)) hnmem
    · have hge : m ≤ dx := by
        have h1 : (m : Int) ≤ (dx : Int) := by omega
        exact_mod_cast h1
      have heq : dx = m := le_antisymm (le_trans hdx_le hde_m) hge
      rw [← heq]
      exact hdx
  · intro hL
    obtain ⟨m', rfl⟩ : ∃ m', m = m' + 1 := ⟨m - 1, by omega⟩
    obtain ⟨s, hs, hr⟩ := hL.1
    cases hr with
    | step hp hadj =>
      rename_i p
      have hpmem : m' ∈ seedDistSet friends p := ⟨s, hs, hp⟩
      have hdp := seedDist_isLeast friends p hpmem
      have hdp_le : sInf (seedDistSet friends p) ≤ m' := hdp.2 hpmem
      have hnodes :
          LevelConstructor.mk p
              (((sInf (seedDistSet friends p) : Nat) : Int) + 1) ∈ nodes := by
        exact hc p _ hdp (by
          have : ((sInf (seedDistSet friends p) : Nat) : Int) ≤ (m' : Int) := by
            exact_mod_cast hdp_le
          push_cast at hm
          omega)
      refine ⟨⟨_, hnodes, hadj⟩, ?_⟩
      intro hxm
      obtain ⟨e, he, hef⟩ := List.mem_map.1 hxm
      obtain ⟨_, d', hd', hlev'⟩ := hb e he
      rw [hef] at hd'
      have hduniq : d' = m' + 1 := IsLeast.unique hd' hL
      have hle' := hlev e he
      rw [hlev'] at hle'
      subst hduniq
      push_cast at hm hle'
      omega

/-- Invariant proof for the `setLevelToFriend` recursion: starting from a
correctly layered prefix (`nodes` holds exactly the persons at seed
distance below `currentLevel - 1`, each labelled distance + 1), the
recursion keeps names duplicate-free, labels every entry with its least
seed distance plus one, and reaches every person whose distance fits the
remaining fuel. -/
theorem setLevelToFriendAux_spec (friends : List Person) :
    ∀ (fuel : Nat) (nodes : List LevelConstructor) (currentLevel : Int),
      2 ≤ currentLevel →
      ((nodes.map (fun e => e.friend)).Nodup) →
      (∀ e ∈ nodes, e.friend ∈ friends ∧ ∃ d : Nat,
        IsLeast (seedDistSet friends e.friend) d ∧ e.level = (d : Int) + 1) →
      (∀ e ∈ nodes, e.level ≤ currentLevel - 1) →
      (∀ (q : Person) (d : Nat), IsLeast (seedDistSet friends q) d →
        (d : Int) + 1 ≤ currentLevel - 1 →
        LevelConstructor.mk q ((d : Int) + 1) ∈ nodes) →
      (((setLevelToFriendAux friends fuel nodes currentLevel).map
          (fun e => e.friend)).Nodup)
      ∧ (∀ e ∈ setLevelToFriendAux friends fuel nodes currentLevel,
          e.friend ∈ friends ∧ ∃ d : Nat,
            IsLeast (seedDistSet friends e.friend) d ∧ e.level = (d : Int) + 1)
      ∧ (∀ (q : Person) (d : Nat), IsLeast (seedDistSet friends q) d →
          (d : Int) + 1 < currentLevel + (fuel : Int) →
          LevelConstructor.mk q ((d : Int) + 1)
            ∈ setLevelToFriendAux friends fuel nodes currentLevel) := by
  intro fuel
  induction fuel with
  | zero =>
    intro nodes currentLevel _ ha hb _ hc
    simp only [setLevelToFriendAux]
    refine ⟨ha, hb, ?_⟩
    intro q d hd hdb
    simp only [Nat.cast_zero, add_zero] at hdb
    exact hc q d hd (by omega)
  | succ fuel ih =>
    intro nodes currentLevel hcur ha hb hlev hc
    by_cases hlen : friends.length = nodes.length
    · simp only [setLevelToFriendAux, if_pos hlen]
      refine ⟨ha, hb, ?_⟩
      intro q d hd _
      have hsub : ∀ y ∈ nodes.map (fun e => e.friend), y ∈ friends := by
        intro y hy
        obtain ⟨e, he, hef⟩ := List.mem_map.1 hy
        exact hef ▸ (hb e he).1
      have hsp := List.subperm_of_subset ha (fun y hy => hsub y hy)
      have hperm := hsp.perm_of_length_le (by rw [List.length_map]; omega)
      have hqf : q ∈ friends := by
        obtain ⟨s, hsmem, hr⟩ := hd.1
        rcases mem_friends_of_reachN friends hr with h | h
        · exact h
        · exact h ▸ List.mem_of_mem_filter hsmem
      have hqm : q ∈ nodes.map (fun e => e.friend) := hperm.mem_iff.2 hqf
      obtain ⟨e, he, hef⟩ := List.mem_map.1 hqm
      obtain ⟨_, d', hd', hlev'⟩ := hb e he
      rw [hef] at hd'
      have hdd : d' = d := IsLeast.unique hd' hd
      subst hdd
      have he' : e = LevelConstructor.mk q ((d' : Int) + 1) := by
        cases e
        simp only [LevelConstructor.mk.injEq]
        exact ⟨hef, hlev'⟩
      exact he' ▸ he
    · simp only [setLevelToFriendAux, if_neg hlen]
      set nn := ((((nodes.map (fun graphNode =>
            graphNode.friend.friends.map (fun friendOfFriend =>
              resolveName friends friendOfFriend))).flatten.foldl setAdd
            []).filterMap id).filter
          (fun y => decide (y ∉ nodes.map (fun elem => elem.friend)))) with hnn
      set m := (currentLevel - 1).toNat with hmdef
      have hm : (m : Int) = currentLevel - 1 := by
        rw [hmdef]
        exact Int.toNat_of_nonneg (by omega)
      have hm1 : 1 ≤ m := by omega
      have hchar : ∀ x, x ∈ nn ↔ IsLeast (seedDistSet friends x) m := by
        intro x
        rw [hnn, mem_step_allFriends_iff]
        exact step_set_is_next_layer friends nodes currentLevel m hm hm1
          hb hlev hc x
      have hnotin : ∀ x ∈ nn, x ∉ nodes.map (fun elem => elem.friend) := by
        intro x hx
        have := (List.mem_filter.1 (hnn ▸ hx)).2
        simpa using this
      have hnn_nodup : nn.Nodup := by
        rw [hnn]
        refine List.Nodup.filter _ (List.Nodup.filterMap ?_
          (foldl_setAdd_nodup _ [] List.nodup_nil))
        intro a a' b hb1 hb2
        cases a <;> cases a' <;> simp_all [Option.mem_def]
      have ha' : (((nodes ++ nn.map (fun f =>
          LevelConstructor.mk f currentLevel)).map
            (fun e => e.friend)).Nodup) := by
        rw [List.map_append]
        have hgen : ∀ l : List Person,
            (l.map (fun f => LevelConstructor.mk f currentLevel)).map
              (fun e => e.friend) = l := by
          intro l
          induction l with
          | nil => rfl
          | cons x xs ihl => simp [ihl]
        rw [hgen nn]
        rw [List.nodup_append]
        refine ⟨ha, hnn_nodup, ?_⟩
        intro y hy hy'
        exact hnotin y hy' hy
      have hb' : ∀ e ∈ nodes ++ nn.map (fun f =>
          LevelConstructor.mk f currentLevel),
          e.friend ∈ friends ∧ ∃ d : Nat,
            IsLeast (seedDistSet friends e.friend) d
              ∧ e.level = (d : Int) + 1 := by
        intro e he
        rcases List.mem_append.1 he with h | h
        · exact hb e h
        · obtain ⟨x, hx, hef⟩ := List.mem_map.1 h
          have hL := (hchar x).1 hx
          have hxf : x ∈ friends := by
            obtain ⟨s, hsmem, hr⟩ := hL.1
            rcases mem_friends_of_reachN friends hr with h' | h'
            · exact h'
            · exact h' ▸ List.mem_of_mem_filter hsmem
          subst hef
          refine ⟨hxf, m, hL, ?_⟩
          show currentLevel = (m : Int) + 1
          omega
      have hlev' : ∀ e ∈ nodes ++ nn.map (fun f =>
          LevelConstructor.mk f currentLevel),
          e.level ≤ (currentLevel + 1) - 1 := by
        intro e he
        rcases List.mem_append.1 he with h | h
        · have := hlev e h
          omega
        · obtain ⟨x, _, hef⟩ := List.mem_map.1 h
          subst hef
          show currentLevel ≤ (currentLevel + 1) - 1
          omega
      have hc' : ∀ (q : Person) (d : Nat),
          IsLeast (seedDistSet friends q) d →
          (d : Int) + 1 ≤ (currentLevel + 1) - 1 →
          LevelConstructor.mk q ((d : Int) + 1)
            ∈ nodes ++ nn.map (fun f =>
              LevelConstructor.mk f currentLevel) := by
        intro q d hd hdb
        by_cases hsm : (d : Int) + 1 ≤ currentLevel - 1
        · exact List.mem_append_left _ (hc q d hd hsm)
        · have hdm : d = m := by
            have : (d : Int) = (m : Int) := by omega
            exact_mod_cast this
          have hq : q ∈ nn := (hchar q).2 (hdm ▸ hd)
          refine List.mem_append_right _ ?_
          have heq2 : LevelConstructor.mk q currentLevel
              = LevelConstructor.mk q ((d : Int) + 1) := by
            simp only [LevelConstructor.mk.injEq]
            refine ⟨by trivial, ?_⟩
            rw [hdm]
            omega
          exact heq2 ▸ List.mem_map_of_mem _ hq
      obtain ⟨p1, p2, p3⟩ := ih
        (nodes ++ nn.map (fun f => LevelConstructor.mk f currentLevel))
        (currentLevel + 1) (by omega) ha' hb' hlev' hc'
      refine ⟨p1, p2, ?_⟩
      intro q d hd hdb
      refine p3 q d hd ?_
      push_cast at hdb ⊢
      omega

/-- C3: in a component with duplicate-free person records, every person `q`
whose least seed distance `d` (in hops from the nearest `best`-flagged seed,
over the name-resolved adjacency the assigner uses) satisfies
`d + 1 ≤ maxLevel` receives exactly one level from `getFriendsLevels`, and
that level is `d + 1` — seeds themselves (distance 0) are level 1. -/
theorem c3_level_is_seed_distance (friends : List Person) (maxLevel : Int)
    (hnd : friends.Nodup) (q : Person) (d : Nat)
    (hd : IsLeast (seedDistSet friends q) d)
    (hbound : (d : Int) + 1 ≤ maxLevel) :
    (getFriendsLevels friends maxLevel).filter
        (fun e => decide (e.friend = q))
      = [LevelConstructor.mk q ((d : Int) + 1)] := by
  have hseed : ∃ s, s ∈ friends.filter (fun p => p.best) := by
    obtain ⟨s, hs, _⟩ := hd.1
    exact ⟨s, hs⟩
  have hml : 1 ≤ maxLevel := by omega
  unfold getFriendsLevels
  rw [if_neg (by
    push_neg
    constructor
    · omega
    · obtain ⟨s, hs⟩ := hseed
      rw [List.length_map]
      have := List.length_pos.2 (List.ne_nil_of_mem hs)
      omega)]
  unfold setLevelToFriend
  set seeds := friends.filter (fun p => p.best) with hseeds
  set nodes0 := seeds.map (fun bestFriend => LevelConstructor.mk bestFriend 1)
    with hnodes0
  have ha0 : ((nodes0.map (fun e => e.friend)).Nodup) := by
    have hgen : nodes0.map (fun e => e.friend) = seeds := by
      rw [hnodes0, List.map_map]
      exact List.map_id seeds
    rw [hgen, hseeds]
    exact hnd.filter _
  have hb0 : ∀ e ∈ nodes0, e.friend ∈ friends ∧ ∃ d' : Nat,
      IsLeast (seedDistSet friends e.friend) d' ∧ e.level = (d' : Int) + 1 := by
    intro e he
    obtain ⟨s, hs, hef⟩ := List.mem_map.1 (hnodes0 ▸ he)
    subst hef
    refine ⟨List.mem_of_mem_filter hs, 0, ⟨⟨s, hs, ReachN.refl s⟩,
      fun n _ => Nat.zero_le n⟩, ?_⟩
    show (1 : Int) = (0 : Nat) + 1
    simp
  have hlev0 : ∀ e ∈ nodes0, e.level ≤ 2 - 1 := by
    intro e he
    obtain ⟨s, _, hef⟩ := List.mem_map.1 (hnodes0 ▸ he)
    subst hef
    show (1 : Int) ≤ 2 - 1
    omega
  have hc0 : ∀ (q' : Person) (d' : Nat),
      IsLeast (seedDistSet friends q') d' → (d' : Int) + 1 ≤ 2 - 1 →
      LevelConstructor.mk q' ((d' : Int) + 1) ∈ nodes0 := by
    intro q' d' hd' hb'
    have hd0 : d' = 0 := by
      have h0 : (d' : Int) ≤ 0 := by omega
      have h1 : d' ≤ 0 := by exact_mod_cast h0
      omega
    subst hd0
    obtain ⟨s, hs, hr⟩ := hd'.1
    have hqs : q' = s := by
      cases hr
      rfl
    subst hqs
    have heq : LevelConstructor.mk q' (((0 : Nat) : Int) + 1)
        = LevelConstructor.mk q' 1 := by
      simp
    rw [heq, hnodes0]
    exact List.mem_map_of_mem
      (fun bestFriend => LevelConstructor.mk bestFriend 1) hs
  obtain ⟨p1, p2, p3⟩ := setLevelToFriendAux_spec friends
    ((maxLevel + 1 - 2).toNat) nodes0 2 (by omega) ha0 hb0 hlev0 hc0
  have hmem := p3 q d hd (by omega)
  refine filter_eq_singleton_of_unique _ (LevelConstructor.mk q ((d : Int) + 1))
    hmem ?_ p1
  intro e' he' hf
  obtain ⟨_, d', hd', hlev'⟩ := p2 e' he'
  have hfq : e'.friend = q := hf
  rw [hfq] at hd'
  have : d' = d := IsLeast.unique hd' hd
  subst this
  cases e'
  simp only [LevelConstructor.mk.injEq]
  exact ⟨hfq, hlev'⟩

/-- The C3 witness person: a lone seed. -/
def c3P : Person := ⟨"P", "male", true, []⟩

/-- Witness for C3 at a concrete component: the single seed is at distance
0 and gets exactly the level 1. -/
theorem c3_level_is_seed_distance_witness :
    (getFriendsLevels [c3P] 1).filter (fun e => decide (e.friend = c3P))
      = [LevelConstructor.mk c3P 1] := by
  have h := c3_level_is_seed_distance [c3P] 1 (by decide) c3P 0
    ⟨⟨c3P, by decide, ReachN.refl c3P⟩, fun n _ => Nat.zero_le n⟩
    (by decide)
  simpa using h

end Social
